import Mathlib

/-!
Verification development for `whatdidyougetdone.py`, a GitHub activity
report generator.  The script is embedded shallowly: external calls
(`gh` subprocesses, the GitHub API) become oracle functions passed as
parameters, Python exceptions become `Except Unit`, and the rendered
markdown body becomes a structured list of `Line`s (each line also
records the full data it was rendered from, so that properties about
"the activity a line corresponds to" can be stated).

Key modelling decision, faithful to Python semantics: `os.popen(cmd).read()`
returns the command's stdout as a string and does NOT raise when the
command exits with a non-zero status; it is modelled as a total function
`String → String`.  By contrast `json.loads` of unusable output raises,
which is modelled by the oracle returning `none` and the embedding
returning `.error ()` at that point (the exception is uncaught there).
-/

structure Stats where
  additions : Nat
  deletions : Nat
deriving DecidableEq

structure CommitInfo where
  repo : String
  message : String
  author : String
  sha : String
  date : Nat
  stats : Option Stats
deriving DecidableEq

structure PRInfo where
  repo : String
  title : String
  state : String
  date : Nat
  head_repo : String
  author : String
deriving DecidableEq

inductive Activity where
  | commit (c : CommitInfo)
  | pr (p : PRInfo)
deriving DecidableEq

def Activity.repo : Activity → String
  | .commit c => c.repo
  | .pr p => p.repo

def Activity.date : Activity → Nat
  | .commit c => c.date
  | .pr p => p.date

structure PushCommit where
  message : String
  author : String
  sha : String
deriving DecidableEq

structure RawPullRequest where
  title : String
  state : String
  base_repo : String
  base_owner : String
  head_repo : String
  author : String
deriving DecidableEq

/-- Raw events from the GitHub event feed.  Only `PushEvent` and
`PullRequestEvent` are recognized by the script; everything else is
`other`. -/
inductive Event where
  | push (actor : String) (repo : String) (created_at : Nat) (commits : List PushCommit)
  | pullRequest (created_at : Nat) (pr : RawPullRequest)
  | other (created_at : Nat)
deriving DecidableEq

def Event.created_at : Event → Nat
  | .push _ _ d _ => d
  | .pullRequest d _ => d
  | .other d => d

structure ParentRepo where
  owner : String
  name : String
deriving DecidableEq

/-- Result of parsing `gh repo view <repo> --json isFork,parent`. -/
structure RepoInfo where
  isFork : Bool
  parent : Option ParentRepo
deriving DecidableEq

def mkCommitActivity (repo : String) (date : Nat) (stats : Option Stats)
    (c : PushCommit) : Activity :=
  .commit { repo := repo, message := c.message, author := c.author, sha := c.sha,
            date := date, stats := stats }

/-- One iteration of the event loop of `get_user_activity` (lines 102-179 of
the script).  `repoView r` is the parsed output of
`gh repo view r --json isFork,parent` (`none` when the output is unusable, in
which case `json.loads` raises, uncaught: `.error ()`).  `parentView` is the
raw stdout of `os.popen('gh repo view <parent>').read()`: since `os.popen`
never raises on command failure, the surrounding `try` always succeeds and the
`continue` is always executed for forks, whatever `parentView` returns.
`commitStats r sha` is the parsed stats of `gh api repos/r/commits/sha`
(`none` when that fetch fails; the exception there IS caught and the commit is
added without stats). -/
def processEvent (username : String) (repoView : String → Option RepoInfo)
    (parentView : String → String) (commitStats : String → String → Option Stats) :
    Event → Except Unit (List Activity)
  | .push actor repo date commits =>
    if actor = username then
      match repoView repo with
      | none => .error ()
      | some ri =>
        if ri.isFork then
          match ri.parent with
          | none => .error ()
          | some par =>
            let _ := parentView (par.owner ++ "/" ++ par.name)
            .ok []
        else
          .ok (commits.map (fun c => mkCommitActivity repo date (commitStats repo c.sha) c))
    else .ok []
  | .pullRequest date pr =>
    if pr.author = username ∨ pr.base_owner = username then
      .ok [.pr { repo := pr.base_repo, title := pr.title, state := pr.state, date := date,
                 head_repo := pr.head_repo, author := pr.author }]
    else .ok []
  | .other _ => .ok []

/-- Error-propagating map: a raised exception aborts the whole traversal,
like an uncaught Python exception aborts the enclosing loop. -/
def mapExcept {α β : Type} (f : α → Except Unit β) : List α → Except Unit (List β)
  | [] => .ok []
  | a :: l => do
    let b ← f a
    let bs ← mapExcept f l
    return b :: bs

/-- Function `get_user_activity`: iterate the feed, breaking at the first event older
than the window start, and classify each remaining event. -/
def get_user_activity (username : String) (repoView : String → Option RepoInfo)
    (parentView : String → String) (commitStats : String → String → Option Stats)
    (start_date : Nat) (events : List Event) : Except Unit (List Activity) := do
  let evs := events.takeWhile (fun e => decide (start_date ≤ e.created_at))
  let lists ← mapExcept (processEvent username repoView parentView commitStats) evs
  return lists.flatten

/-! ## Rendering (`generate_report`, lines 184-280) -/

/-- Structured form of one appended chunk of the report body.  `prLine` and
`commitLine` carry the full data of the entry they were rendered from
(message, SHA, timestamp), which the textual rendering then projects. -/
inductive Line where
  | summary (commits prs : Nat)
  | noActivity
  | repoHeader (repo : String) (parent : Option ParentRepo)
  | prLine (repo title : String) (closed : Bool) (date : Nat)
  | commitLine (repo message sha : String) (date : Nat) (stats : Option Stats)
deriving DecidableEq

def shaList (acts : List Activity) : List String :=
  acts.filterMap (fun a => match a with | .commit c => some c.sha | .pr _ => none)

def prKeyList (acts : List Activity) : List (String × String) :=
  acts.filterMap (fun a => match a with | .pr p => some (p.repo, p.title) | .commit _ => none)

/-- Python `len({a["sha"] for a in activities if a["type"] == "commit"})`. -/
def total_commits (acts : List Activity) : Nat := (shaList acts).dedup.length

/-- Python `len({(a["repo"], a["title"]) for a in activities if a["type"] == "pr"})`. -/
def total_prs (acts : List Activity) : Nat := (prKeyList acts).dedup.length

/-- Stable descending insertion by a `Nat` key: an element is placed before
the first element whose key is `≤` its own, so elements with equal keys keep
their input order.  This matches Python `sorted(-, key=-, reverse=True)`,
which is a stable descending sort. -/
def insertDescBy {α : Type} (key : α → Nat) (a : α) : List α → List α
  | [] => [a]
  | b :: l => if key b ≤ key a then a :: b :: l else b :: insertDescBy key a l

def sortDescBy {α : Type} (key : α → Nat) : List α → List α
  | [] => []
  | a :: l => insertDescBy key a (sortDescBy key l)

/-- Insert-or-update in an association list, preserving key insertion order
(the behaviour of a Python `dict`). -/
def upsert {β : Type} (f : Option β → β) (k : String) :
    List (String × β) → List (String × β)
  | [] => [(k, f none)]
  | (k', v) :: gs => if k' = k then (k', f (some v)) :: gs else (k', v) :: upsert f k gs

def lookupKey {β : Type} (k : String) : List (String × β) → Option β
  | [] => none
  | (k', v) :: gs => if k' = k then some v else lookupKey k gs

/-- Grouping of activities by repository (`repos` dict, lines 189-194):
keys in first-occurrence order, each group in input order. -/
def groupStep (gs : List (String × List Activity)) (a : Activity) :
    List (String × List Activity) :=
  upsert (fun l? => match l? with | none => [a] | some l => l ++ [a]) a.repo gs

def groupByRepo (acts : List Activity) : List (String × List Activity) :=
  acts.foldl groupStep []

def natMax (l : List Nat) : Nat := l.foldl max 0

/-- Python `max(act["date"] for act in acts)` (groups are nonempty, so the `0`
default is never the deciding value). -/
def maxDateOf (acts : List Activity) : Nat := natMax (acts.map Activity.date)

/-- Python `sorted(repos.items(), key=lambda x: max(...), reverse=True)`. -/
def sortedReposOf (acts : List Activity) : List (String × List Activity) :=
  sortDescBy (fun g => maxDateOf g.2) (groupByRepo acts)

def isCommitAct : Activity → Bool
  | .commit _ => true
  | .pr _ => false

def isPRAct : Activity → Bool
  | .commit _ => false
  | .pr _ => true

/-- Character-list prefix test (`str.startswith`). -/
def charsLeads : List Char → List Char → Bool
  | [], _ => true
  | _ :: _, [] => false
  | a :: as, b :: bs => a == b && charsLeads as bs

/-- Character-list substring test (Python `in` on strings). -/
def charsHasSub (pat : List Char) : List Char → Bool
  | [] => charsLeads pat []
  | c :: t => charsLeads pat (c :: t) || charsHasSub pat t

def strStarts (s pat : String) : Bool := charsLeads pat.data s.data

def strContains (s pat : String) : Bool := charsHasSub pat.data s.data

/-- The render-time commit suppression test (line 261):
`act["message"].startswith("Merge") or "Co-authored-by" in act["message"]`. -/
def suppressed (m : String) : Bool :=
  strStarts m "Merge" || strContains m "Co-authored-by"

/-- The commit rendering loop (lines 258-278): walk the date-sorted commits,
skip suppressed messages, skip SHAs already seen in this section, and emit a
line for the rest while recording the SHA. -/
def renderCommitsAux (repo : String) : List Activity → List String → List Line
  | [], _ => []
  | .pr _ :: rest, seen => renderCommitsAux repo rest seen
  | .commit c :: rest, seen =>
    if suppressed c.message then renderCommitsAux repo rest seen
    else if seen.contains c.sha then renderCommitsAux repo rest seen
    else Line.commitLine repo c.message c.sha c.date c.stats ::
      renderCommitsAux repo rest (c.sha :: seen)

def sectionCommits (acts : List Activity) : List Activity := acts.filter isCommitAct

def sectionCommitLines (repo : String) (acts : List Activity) : List Line :=
  renderCommitsAux repo (sortDescBy Activity.date (sectionCommits acts)) []

/-- The PR list of a section: all PR activities, and for a fork section only
those whose head repository is this fork (lines 234-238). -/
def sectionPRs (fork : Bool) (repo : String) (acts : List Activity) : List Activity :=
  let prs := acts.filter isPRAct
  if fork then
    prs.filter (fun a => match a with | .pr p => p.head_repo == repo | .commit _ => false)
  else prs

structure PRGroup where
  date : Nat
  states : List String
deriving DecidableEq

/-- Python `set.add` modelled on lists: membership-preserving insert. -/
def insertState (s : String) (states : List String) : List String :=
  if s ∈ states then states else states ++ [s]

/-- One iteration of the PR grouping loop (lines 241-249): group by title,
keep the union of states and the most recent date. -/
def prStep (gs : List (String × PRGroup)) (a : Activity) : List (String × PRGroup) :=
  match a with
  | .pr p => upsert (fun g? => match g? with
      | none => { date := p.date, states := [p.state] }
      | some g => { date := max g.date p.date, states := insertState p.state g.states })
      p.title gs
  | .commit _ => gs

def prGroupsOf (prs : List Activity) : List (String × PRGroup) := prs.foldl prStep []

/-- The PR lines of a section (lines 252-255): grouped, sorted by latest date
descending, status `✅` iff `"closed"` is among the grouped states. -/
def sectionPRLines (repo : String) (prs : List Activity) : List Line :=
  (sortDescBy (fun tg => tg.2.date) (prGroupsOf prs)).map
    (fun tg => Line.prLine repo tg.1 (tg.2.states.contains "closed") tg.2.date)

/-- One repository section of the report (lines 221-278): a fresh
`gh repo view` lookup (whose unusable output makes `json.loads` raise,
uncaught), the header with the fork annotation, then PR lines, then commit
lines. -/
def renderSection (info : String → Option RepoInfo) (repo : String)
    (acts : List Activity) : Except Unit (List Line) :=
  match info repo with
  | none => .error ()
  | some ri =>
    if ri.isFork then
      match ri.parent with
      | none => .error ()
      | some par =>
        .ok (Line.repoHeader repo (some par) ::
          (sectionPRLines repo (sectionPRs true repo acts) ++ sectionCommitLines repo acts))
    else
      .ok (Line.repoHeader repo none ::
        (sectionPRLines repo (sectionPRs false repo acts) ++ sectionCommitLines repo acts))

/-- The report body below the title and date range: summary (or the
no-activity marker), then the repository sections in sorted order. -/
def renderBody (info : String → Option RepoInfo) (acts : List Activity) :
    Except Unit (List Line) := do
  let head := if acts.isEmpty then [Line.noActivity]
    else [Line.summary (total_commits acts) (total_prs acts)]
  let secs ← mapExcept (fun g => renderSection info g.1 g.2) (sortedReposOf acts)
  return head ++ secs.flatten

/-- Function `generate_report` fetches the activity and renders the body (the title
and date-range lines above the body are pure I/O formatting). -/
def generate_report (username : String) (repoView : String → Option RepoInfo)
    (parentView : String → String) (commitStats : String → String → Option Stats)
    (info : String → Option RepoInfo) (start_date : Nat) (events : List Event) :
    Except Unit (List Line) := do
  let acts ← get_user_activity username repoView parentView commitStats start_date events
  renderBody info acts

/-! ## Textual rendering of lines -/

def firstLineChars : List Char → List Char
  | [] => []
  | c :: t => if c = '\n' then [] else c :: firstLineChars t

def trimChars (l : List Char) : List Char :=
  ((l.dropWhile Char.isWhitespace).reverse.dropWhile Char.isWhitespace).reverse

/-- Python `act["message"].split('\n')[0].strip()`. -/
def firstLineOf (s : String) : String := String.mk (trimChars (firstLineChars s.data))

def natStr (n : Nat) : String := toString n

def statsText : Option Stats → String
  | none => ""
  | some s =>
    if s.additions ≠ 0 ∨ s.deletions ≠ 0 then
      "<span style=\"color: #28a745\">+" ++ natStr s.additions ++
        "</span><span style=\"color: #dc3545\">-" ++ natStr s.deletions ++ "</span>"
    else ""

def lineText : Line → String
  | .summary c p =>
    "Summary:\n- 💻 " ++ natStr c ++ " unique commits\n- 🔀 " ++ natStr p ++
      " pull requests\n\n"
  | .noActivity => "No activity found in this time period.\n\n"
  | .repoHeader r none => "## " ++ r ++ "\n\n"
  | .repoHeader r (some par) =>
    "## " ++ r ++ " (fork of " ++ par.owner ++ "/" ++ par.name ++ ")\n\n"
  | .prLine _ t closed _ => "- " ++ (if closed then "✅" else "🔄") ++ " " ++ t ++ "\n"
  | .commitLine _ m sha _ st =>
    "- 💻 " ++ firstLineOf m ++ " (" ++ String.mk (sha.data.take 7) ++ ")" ++
      statsText st ++ "\n"

def bodyText (lines : List Line) : String := String.join (lines.map lineText)

/-! ## Team report (`team`, lines 319-358) -/

/-- One detail line of the team report: every activity yields a line, with no
deduplication and no suppression; the PR marker is `✅` iff the single
recorded state equals `"closed"`. -/
def teamActivityLine : Activity → Line
  | .commit c => .commitLine c.repo c.message c.sha c.date c.stats
  | .pr p => .prLine p.repo p.title (p.state == "closed") p.date

def teamUserLines (acts : List Activity) : List Line :=
  (sortDescBy Activity.date acts).map teamActivityLine

/-- Python `sum(1 for a in activities if a["type"] == "commit")`. -/
def teamUserCommitCount (acts : List Activity) : Nat := (acts.filter isCommitAct).length

/-- Python `sum(1 for a in activities if a["type"] == "pr")`. -/
def teamUserPRCount (acts : List Activity) : Nat := (acts.filter isPRAct).length

/-! ## Line classifiers and projections -/

def isSummaryLine : Line → Bool
  | .summary _ _ => true
  | _ => false

def isHeaderLine : Line → Bool
  | .repoHeader _ _ => true
  | _ => false

def isCommitLine : Line → Bool
  | .commitLine _ _ _ _ _ => true
  | _ => false

def isPRLine : Line → Bool
  | .prLine _ _ _ _ => true
  | _ => false

def shaOfLine : Line → Option String
  | .commitLine _ _ sha _ _ => some sha
  | _ => none

def prKeyOfLine : Line → Option (String × String)
  | .prLine repo title _ _ => some (repo, title)
  | _ => none

def lineDate : Line → Nat
  | .prLine _ _ _ d => d
  | .commitLine _ _ _ d _ => d
  | _ => 0

/-! ## Concrete oracles and inputs used by witnesses and counterexamples -/

def noneStats : String → String → Option Stats := fun _ _ => none

def emptyOut : String → String := fun _ => ""

def nonForkInfo : String → Option RepoInfo :=
  fun _ => some { isFork := false, parent := none }

def ex1_repoView : String → Option RepoInfo :=
  fun r => if r = "alice/proj" then
    some { isFork := true, parent := some { owner := "bob", name := "proj" } }
  else some { isFork := false, parent := none }

def ex1_commit : PushCommit :=
  { message := "add feature", author := "alice", sha := "abc1234deadbeef" }

def ex1_events : List Event := [Event.push "alice" "alice/proj" 5 [ex1_commit]]

def ex2_commit : PushCommit :=
  { message := "fix bug", author := "alice", sha := "1111111aaaaaaa" }

def ex2_pr : RawPullRequest :=
  { title := "Add docs", state := "open", base_repo := "alice/tool",
    base_owner := "alice", head_repo := "alice/tool", author := "alice" }

def ex2_events : List Event :=
  [Event.push "alice" "alice/tool" 9 [ex2_commit], Event.pullRequest 8 ex2_pr]

def ex2_repoView : String → Option RepoInfo := fun _ => none

def ex8_pr : RawPullRequest :=
  { title := "T", state := "open", base_repo := "alice/r",
    base_owner := "alice", head_repo := "bob/r", author := "bob" }

def ex8_events : List Event := [Event.pullRequest 4 ex8_pr]

def ex8_prInfo : PRInfo :=
  { repo := "alice/r", title := "T", state := "open", date := 4,
    head_repo := "bob/r", author := "bob" }

/-- The PR infos of a list that carry a given title (the constituents of one
deduplication group). -/
def prsTitled (t : String) (prs : List Activity) : List PRInfo :=
  prs.filterMap (fun a => match a with
    | .pr p => if p.title = t then some p else none
    | .commit _ => none)

def prDatesOf (t : String) (prs : List Activity) : List Nat :=
  (prsTitled t prs).map PRInfo.date

def prStatesOf (t : String) (prs : List Activity) : List String :=
  (prsTitled t prs).map PRInfo.state

/-- Intended order of the entry lines inside one repository section: PR lines
first (dates descending), then commit lines (dates descending); a commit line
may never precede a PR line. -/
def lineOrd : Line → Line → Prop
  | Line.prLine _ _ _ d1, Line.prLine _ _ _ d2 => d2 ≤ d1
  | Line.prLine _ _ _ _, Line.commitLine _ _ _ _ _ => True
  | Line.commitLine _ _ _ d1 _, Line.commitLine _ _ _ d2 _ => d2 ≤ d1
  | _, _ => False

def linesOf : Except Unit (List Line) → List Line
  | .ok ls => ls
  | .error _ => []

def shasOfLines (lines : List Line) : List String := lines.filterMap shaOfLine

def prKeysOfLines (lines : List Line) : List (String × String) :=
  lines.filterMap prKeyOfLine

def commitLineCount (lines : List Line) : Nat := (lines.filter isCommitLine).length

def prLineCount (lines : List Line) : Nat := (lines.filter isPRLine).length

def mkC (repo sha msg : String) (d : Nat) : Activity :=
  .commit { repo := repo, message := msg, author := "alice", sha := sha, date := d,
            stats := none }

def mkP (repo title state : String) (d : Nat) (head : String) : Activity :=
  .pr { repo := repo, title := title, state := state, date := d, head_repo := head,
        author := "alice" }

def ex3_acts : List Activity := [mkC "a/r" "s1" "first change" 2, mkC "b/r" "s1" "second change" 1]

def ex4_acts : List Activity := [mkC "a/r" "s2" "tidy up" 3]

def ex5_prs : List Activity := [mkP "r" "T" "opened" 1 "r", mkP "r" "T" "closed" 2 "r"]

def ex6_acts : List Activity := [mkP "a/r" "T" "opened" 4 "a/r", mkC "a/r" "s3" "small fix" 5]

def ex7_acts : List Activity := [mkC "c/r" "s9" "alpha work" 7, mkC "d/r" "s9" "beta work" 6]

def ex10_acts : List Activity :=
  [mkC "a/r" "s5" "Merge branch main" 3, mkC "a/r" "s5" "Merge branch main" 2]

/-! # Helper lemmas -/

theorem mapExcept_ok_forall₂ {α β : Type} (f : α → Except Unit β) :
    ∀ (l : List α) (out : List β), mapExcept f l = .ok out →
      List.Forall₂ (fun a b => f a = .ok b) l out := by
  intro l
  induction l with
  | nil =>
    intro out h
    simp only [mapExcept, Except.ok.injEq] at h
    rw [← h]
    exact List.Forall₂.nil
  | cons a l ih =>
    intro out h
    simp only [mapExcept] at h
    cases hfa : f a with
    | error e => rw [hfa] at h; simp [Bind.bind, Except.bind] at h
    | ok b =>
      rw [hfa] at h
      cases hml : mapExcept f l with
      | error e => rw [hml] at h; simp [Bind.bind, Except.bind] at h
      | ok bs =>
        rw [hml] at h
        simp only [Bind.bind, Except.bind, pure, Except.pure, Except.ok.injEq] at h
        rw [← h]
        exact List.Forall₂.cons hfa (ih bs hml)

theorem forall₂_mem_right {α β : Type} {R : α → β → Prop} :
    ∀ {l : List α} {out : List β}, List.Forall₂ R l out → ∀ b ∈ out, ∃ a ∈ l, R a b := by
  intro l out h
  induction h with
  | nil => intro b hb; cases hb
  | cons hab _ ih =>
    intro b hb
    rcases List.mem_cons.1 hb with h1 | h2
    · exact ⟨_, List.mem_cons_self _ _, h1 ▸ hab⟩
    · rcases ih b h2 with ⟨a, ha, hr⟩
      exact ⟨a, List.mem_cons_of_mem _ ha, hr⟩

theorem processEvent_pr_inversion (username : String) (repoView : String → Option RepoInfo)
    (parentView : String → String) (commitStats : String → String → Option Stats)
    (e : Event) (out : List Activity)
    (h : processEvent username repoView parentView commitStats e = .ok out)
    (p : PRInfo) (hp : Activity.pr p ∈ out) :
    ∃ (d : Nat) (pr : RawPullRequest), e = .pullRequest d pr ∧
      (pr.author = username ∨ pr.base_owner = username) ∧
      p = { repo := pr.base_repo, title := pr.title, state := pr.state, date := d,
            head_repo := pr.head_repo, author := pr.author } := by
  cases e with
  | push actor repo date commits =>
    exfalso
    by_cases ha : actor = username
    · simp only [processEvent, if_pos ha] at h
      split at h
      · cases h
      · split at h
        · split at h
          · cases h
          · injection h with h'
            rw [← h'] at hp
            cases hp
        · injection h with h'
          rw [← h'] at hp
          rcases List.mem_map.1 hp with ⟨c, _, hc⟩
          simp [mkCommitActivity] at hc
    · simp only [processEvent, if_neg ha] at h
      injection h with h'
      rw [← h'] at hp
      cases hp
  | pullRequest d pr =>
    by_cases hc : pr.author = username ∨ pr.base_owner = username
    · simp only [processEvent, if_pos hc] at h
      injection h with h'
      rw [← h'] at hp
      have h2 := List.mem_singleton.1 hp
      injection h2 with h3
      exact ⟨d, pr, rfl, hc, h3⟩
    · simp only [processEvent, if_neg hc] at h
      injection h with h'
      rw [← h'] at hp
      cases hp
  | other d =>
    simp only [processEvent] at h
    injection h with h'
    rw [← h'] at hp
    cases hp

theorem get_user_activity_pr_inversion (username : String)
    (repoView : String → Option RepoInfo) (parentView : String → String)
    (commitStats : String → String → Option Stats) (start_date : Nat)
    (events : List Event) (acts : List Activity)
    (h : get_user_activity username repoView parentView commitStats start_date events =
      .ok acts) :
    ∀ p : PRInfo, Activity.pr p ∈ acts →
      ∃ (d : Nat) (pr : RawPullRequest),
        Event.pullRequest d pr ∈ events ∧ start_date ≤ d ∧
        (pr.author = username ∨ pr.base_owner = username) ∧
        p = { repo := pr.base_repo, title := pr.title, state := pr.state, date := d,
              head_repo := pr.head_repo, author := pr.author } := by
  intro p hp
  simp only [get_user_activity] at h
  cases hm : mapExcept (processEvent username repoView parentView commitStats)
      (events.takeWhile fun e => decide (start_date ≤ e.created_at)) with
  | error e => rw [hm] at h; simp [Bind.bind, Except.bind] at h
  | ok lists =>
    rw [hm] at h
    simp only [Bind.bind, Except.bind, pure, Except.pure, Except.ok.injEq] at h
    rw [← h] at hp
    rcases List.mem_flatten.1 hp with ⟨lst, hlst, hpl⟩
    have hFa := mapExcept_ok_forall₂ _ _ _ hm
    rcases forall₂_mem_right hFa lst hlst with ⟨e, he, hfe⟩
    rcases processEvent_pr_inversion username repoView parentView commitStats e lst hfe p hpl
      with ⟨d, pr, hedef, hcond, hpdef⟩
    refine ⟨d, pr, ?_, ?_, hcond, hpdef⟩
    · have hmem : e ∈ events := (List.takeWhile_sublist _).subset he
      rw [hedef] at hmem
      exact hmem
    · have hw := List.mem_takeWhile_imp he
      rw [hedef] at hw
      exact of_decide_eq_true hw

/-! # Claims -/

/-- C1: the claim says that a push event by the target user in a fork whose
parent is NOT accessible has its commits included and attributed to the fork.
In the code the parent-accessibility test is a bare `try` around
`os.popen('gh repo view <parent>').read()`, which returns the command's
stdout and never raises on command failure, so the `continue` is always
executed and the `except` branch (the only place fork commits would be
appended) is unreachable.  Evaluated at the failing input — a push by
"alice" in fork "alice/proj" whose parent lookup produces any output
whatsoever, including the empty output of a failed `gh` call — the activity
list contains no commit at all, for every behaviour of the parent lookup. -/
theorem C1_fork_commits_never_included (parentView : String → String)
    (commitStats : String → String → Option Stats) :
    get_user_activity "alice" ex1_repoView parentView commitStats 0 ex1_events = .ok [] :=
  rfl

/-- C2: the claim says a failed fork/parent relationship lookup is treated as
"not a fork" and the batch continues.  In the code
`json.loads(os.popen('gh repo view ... --json isFork,parent').read())` raises
an uncaught `JSONDecodeError` when the lookup produces unusable output, so
the whole report aborts.  Evaluated at the failing input — a push event whose
repository lookup yields unusable output (`none`), followed by a pull-request
event that on its own would be included — `get_user_activity` and
`generate_report` both abort with an error instead of continuing. -/
theorem C2_lookup_failure_aborts_batch (parentView : String → String)
    (commitStats : String → String → Option Stats) (info : String → Option RepoInfo) :
    get_user_activity "alice" ex2_repoView parentView commitStats 0 ex2_events = .error () ∧
    processEvent "alice" ex2_repoView parentView commitStats (Event.pullRequest 8 ex2_pr) =
      .ok [Activity.pr { repo := "alice/tool", title := "Add docs", state := "open",
                         date := 8, head_repo := "alice/tool", author := "alice" }] ∧
    generate_report "alice" ex2_repoView parentView commitStats info 0 ex2_events =
      .error () :=
  ⟨rfl, rfl, rfl⟩

/-- C8: a pull-request event is included in the activity list iff the target
username equals the PR author or the owner of the PR's base repository, and
the resulting activity is attributed to (stored under) the base repository.
The first conjunct is the per-event decision rule; the second shows every
pull-request activity in a successful `get_user_activity` result arises from
an in-window pull-request event satisfying the rule and carries its base
repository as its `repo`. -/
theorem C8_pr_inclusion_rule (username : String) (repoView : String → Option RepoInfo)
    (parentView : String → String) (commitStats : String → String → Option Stats) :
    (∀ (date : Nat) (pr : RawPullRequest),
      processEvent username repoView parentView commitStats (.pullRequest date pr) =
        .ok (if pr.author = username ∨ pr.base_owner = username then
          [Activity.pr { repo := pr.base_repo, title := pr.title, state := pr.state,
                         date := date, head_repo := pr.head_repo, author := pr.author }]
          else [])) ∧
    (∀ (start_date : Nat) (events : List Event) (acts : List Activity),
      get_user_activity username repoView parentView commitStats start_date events =
        .ok acts →
      ∀ p : PRInfo, Activity.pr p ∈ acts →
        ∃ (d : Nat) (pr : RawPullRequest),
          Event.pullRequest d pr ∈ events ∧ start_date ≤ d ∧
          (pr.author = username ∨ pr.base_owner = username) ∧
          p = { repo := pr.base_repo, title := pr.title, state := pr.state, date := d,
                head_repo := pr.head_repo, author := pr.author }) := by
  constructor
  · intro date pr
    by_cases hc : pr.author = username ∨ pr.base_owner = username
    · simp only [processEvent, if_pos hc]
    · simp only [processEvent, if_neg hc]
  · intro start_date events acts h
    exact get_user_activity_pr_inversion username repoView parentView commitStats
      start_date events acts h

theorem C8_pr_inclusion_rule_witness :
    ∃ (d : Nat) (pr : RawPullRequest),
      Event.pullRequest d pr ∈ ex8_events ∧ 0 ≤ d ∧
      (pr.author = "alice" ∨ pr.base_owner = "alice") ∧
      ex8_prInfo = { repo := pr.base_repo, title := pr.title, state := pr.state, date := d,
                     head_repo := pr.head_repo, author := pr.author } :=
  (C8_pr_inclusion_rule "alice" nonForkInfo emptyOut noneStats).2 0 ex8_events
    [Activity.pr ex8_prInfo] rfl ex8_prInfo (List.mem_singleton.2 rfl)

/-- C9: with an empty activity list the report body is exactly the
no-activity marker: its text contains the literal
"No activity found in this time period.", and there is no summary line and
no repository section. -/
theorem C9_empty_activity_report (info : String → Option RepoInfo) :
    renderBody info [] = .ok [Line.noActivity] ∧
    strContains (bodyText [Line.noActivity]) "No activity found in this time period." = true ∧
    [Line.noActivity].filter isSummaryLine = [] ∧
    [Line.noActivity].filter isHeaderLine = [] :=
  ⟨rfl, rfl, rfl, rfl⟩

/-! ## Stable descending sort lemmas -/

theorem insertDescBy_perm {α : Type} (key : α → Nat) (a : α) (l : List α) :
    List.Perm (insertDescBy key a l) (a :: l) := by
  induction l with
  | nil => exact List.Perm.refl _
  | cons b l ih =>
    simp only [insertDescBy]
    by_cases h : key b ≤ key a
    · rw [if_pos h]
    · rw [if_neg h]
      exact (ih.cons b).trans (List.Perm.swap a b l)

theorem sortDescBy_perm {α : Type} (key : α → Nat) (l : List α) :
    List.Perm (sortDescBy key l) l := by
  induction l with
  | nil => exact List.Perm.refl _
  | cons a l ih =>
    simp only [sortDescBy]
    exact (insertDescBy_perm key a (sortDescBy key l)).trans (ih.cons a)

theorem mem_sortDescBy {α : Type} {key : α → Nat} {l : List α} {a : α} :
    a ∈ sortDescBy key l ↔ a ∈ l :=
  (sortDescBy_perm key l).mem_iff

theorem length_sortDescBy {α : Type} (key : α → Nat) (l : List α) :
    (sortDescBy key l).length = l.length :=
  (sortDescBy_perm key l).length_eq

theorem insertDescBy_pairwise {α : Type} (key : α → Nat) (a : α) (l : List α)
    (h : l.Pairwise (fun x y => key y ≤ key x)) :
    (insertDescBy key a l).Pairwise (fun x y => key y ≤ key x) := by
  induction l with
  | nil => simp [insertDescBy]
  | cons b l ih =>
    rcases List.pairwise_cons.1 h with ⟨hb, hl⟩
    simp only [insertDescBy]
    by_cases hba : key b ≤ key a
    · rw [if_pos hba]
      refine List.pairwise_cons.2 ⟨?_, h⟩
      intro x hx
      rcases List.mem_cons.1 hx with rfl | hx2
      · exact hba
      · exact le_trans (hb x hx2) hba
    · rw [if_neg hba]
      refine List.pairwise_cons.2 ⟨?_, ih hl⟩
      intro x hx
      have hx' := (insertDescBy_perm key a l).mem_iff.1 hx
      rcases List.mem_cons.1 hx' with rfl | hx2
      · exact le_of_not_le hba
      · exact hb x hx2

theorem sortDescBy_pairwise {α : Type} (key : α → Nat) (l : List α) :
    (sortDescBy key l).Pairwise (fun x y => key y ≤ key x) := by
  induction l with
  | nil => simp [sortDescBy]
  | cons a l ih => exact insertDescBy_pairwise key a _ ih

theorem insertDescBy_filter {α : Type} (key : α → Nat) (a : α) (l : List α) (k : Nat) :
    (insertDescBy key a l).filter (fun x => key x == k) =
      if key a = k then a :: l.filter (fun x => key x == k)
      else l.filter (fun x => key x == k) := by
  induction l with
  | nil =>
    by_cases h : key a = k
    · simp [insertDescBy, List.filter_cons, h]
    · simp [insertDescBy, List.filter_cons, h]
  | cons b l ih =>
    simp only [insertDescBy]
    by_cases hba : key b ≤ key a
    · rw [if_pos hba]
      by_cases h : key a = k
      · simp [List.filter_cons, h]
      · simp [List.filter_cons, h]
    · rw [if_neg hba]
      by_cases h : key a = k
      · have hbk : ¬ key b = k := by
          intro hb
          exact hba (le_of_eq (hb.trans h.symm))
        simp [List.filter_cons, h, hbk, ih]
      · by_cases hbk : key b = k
        · simp [List.filter_cons, h, hbk, ih]
        · simp [List.filter_cons, h, hbk, ih]

theorem sortDescBy_filter {α : Type} (key : α → Nat) (l : List α) (k : Nat) :
    (sortDescBy key l).filter (fun x => key x == k) = l.filter (fun x => key x == k) := by
  induction l with
  | nil => rfl
  | cons a l ih =>
    simp only [sortDescBy]
    rw [insertDescBy_filter]
    by_cases h : key a = k
    · simp [List.filter_cons, h, ih]
    · simp [List.filter_cons, h, ih]

/-! ## natMax lemmas -/

theorem foldl_max_init (l : List Nat) (a : Nat) : a ≤ l.foldl max a := by
  induction l generalizing a with
  | nil => exact le_refl a
  | cons b l ih => exact le_trans (le_max_left a b) (ih (max a b))

theorem foldl_max_le_of_mem (l : List Nat) (a : Nat) : ∀ d ∈ l, d ≤ l.foldl max a := by
  induction l generalizing a with
  | nil => intro d hd; cases hd
  | cons b l ih =>
    intro d hd
    rcases List.mem_cons.1 hd with rfl | hd2
    · exact le_trans (le_max_right a d) (foldl_max_init l (max a d))
    · exact ih (max a b) d hd2

theorem foldl_max_cases (l : List Nat) (a : Nat) : l.foldl max a = a ∨ l.foldl max a ∈ l := by
  induction l generalizing a with
  | nil => exact Or.inl rfl
  | cons b l ih =>
    rcases ih (max a b) with h | h
    · rcases max_choice a b with hm | hm
      · exact Or.inl (by simp only [List.foldl_cons]; rw [h, hm])
      · refine Or.inr (List.mem_cons.2 (Or.inl ?_))
        simp only [List.foldl_cons]
        rw [h, hm]
    · exact Or.inr (List.mem_cons.2 (Or.inr h))

theorem natMax_mem (l : List Nat) (h : l ≠ []) : natMax l ∈ l := by
  rcases foldl_max_cases l 0 with h0 | hmem
  · cases l with
    | nil => exact absurd rfl h
    | cons c t =>
      have hc : c ≤ natMax (c :: t) := foldl_max_le_of_mem _ 0 c (List.mem_cons_self c t)
      have : natMax (c :: t) = 0 := h0
      have hc0 : c = 0 := Nat.le_zero.1 (this ▸ hc)
      refine List.mem_cons.2 (Or.inl ?_)
      rw [show natMax (c :: t) = 0 from h0, hc0]
  · exact hmem

theorem le_natMax (l : List Nat) : ∀ d ∈ l, d ≤ natMax l :=
  foldl_max_le_of_mem l 0

theorem natMax_append_single (l : List Nat) (d : Nat) :
    natMax (l ++ [d]) = max (natMax l) d := by
  simp [natMax, List.foldl_append]

/-! ## Association-list (Python dict) lemmas -/

theorem lookupKey_upsert {β : Type} (f : Option β → β) (k k' : String)
    (gs : List (String × β)) :
    lookupKey k' (upsert f k gs) =
      if k = k' then some (f (lookupKey k' gs)) else lookupKey k' gs := by
  induction gs with
  | nil =>
    by_cases h : k = k'
    · simp [upsert, lookupKey, h]
    · simp [upsert, lookupKey, h]
  | cons g gs ih =>
    obtain ⟨k2, v⟩ := g
    by_cases h2 : k2 = k
    · subst h2
      by_cases h : k2 = k'
      · subst h
        simp [upsert, lookupKey]
      · simp [upsert, lookupKey, h]
    · by_cases h : k2 = k'
      · subst h
        have hkk : ¬ k = k2 := fun hh => h2 hh.symm
        simp [upsert, lookupKey, h2, hkk]
      · simp [upsert, lookupKey, h2, h, ih]

theorem upsert_keys {β : Type} (f : Option β → β) (k : String) (gs : List (String × β)) :
    (upsert f k gs).map Prod.fst =
      if k ∈ gs.map Prod.fst then gs.map Prod.fst else gs.map Prod.fst ++ [k] := by
  induction gs with
  | nil => simp [upsert]
  | cons g gs ih =>
    obtain ⟨k2, v⟩ := g
    by_cases h2 : k2 = k
    · subst h2
      simp [upsert]
    · have hne : ¬ k = k2 := fun hh => h2 hh.symm
      by_cases hmem : k ∈ gs.map Prod.fst
      · simp [upsert, h2, hmem, ih, hne]
      · simp [upsert, h2, hmem, ih, hne]

theorem upsert_keys_nodup {β : Type} (f : Option β → β) (k : String)
    (gs : List (String × β)) (h : (gs.map Prod.fst).Nodup) :
    ((upsert f k gs).map Prod.fst).Nodup := by
  rw [upsert_keys]
  by_cases hmem : k ∈ gs.map Prod.fst
  · rw [if_pos hmem]; exact h
  · rw [if_neg hmem]
    refine List.Nodup.append h (List.nodup_singleton k) ?_
    intro x hx hx2
    rcases List.mem_singleton.1 hx2 with rfl
    exact hmem hx

theorem mem_of_lookupKey {β : Type} {k : String} {v : β} :
    ∀ {gs : List (String × β)}, lookupKey k gs = some v → (k, v) ∈ gs := by
  intro gs
  induction gs with
  | nil => intro h; cases h
  | cons g gs ih =>
    obtain ⟨k2, v2⟩ := g
    intro h
    by_cases h2 : k2 = k
    · subst h2
      simp only [lookupKey, if_pos rfl] at h
      injection h with h'
      rw [← h']
      exact List.mem_cons_self _ _
    · simp only [lookupKey, if_neg h2] at h
      exact List.mem_cons_of_mem _ (ih h)

theorem lookupKey_of_mem {β : Type} {k : String} {v : β} :
    ∀ {gs : List (String × β)}, (gs.map Prod.fst).Nodup → (k, v) ∈ gs →
      lookupKey k gs = some v := by
  intro gs
  induction gs with
  | nil => intro _ h; cases h
  | cons g gs ih =>
    obtain ⟨k2, v2⟩ := g
    intro hnd hmem
    have hnd2 : (gs.map Prod.fst).Nodup := (List.nodup_cons.1 hnd).2
    have hk2 : k2 ∉ gs.map Prod.fst := (List.nodup_cons.1 hnd).1
    rcases List.mem_cons.1 hmem with heq | hmem2
    · injection heq with e1 e2
      subst e1; subst e2
      simp [lookupKey]
    · have hne : ¬ k2 = k := by
        intro hh
        subst hh
        exact hk2 (List.mem_map.2 ⟨(k2, v), hmem2, rfl⟩)
      simp only [lookupKey, if_neg hne]
      exact ih hnd2 hmem2

theorem lookupKey_none_iff {β : Type} (k : String) (gs : List (String × β)) :
    lookupKey k gs = none ↔ k ∉ gs.map Prod.fst := by
  induction gs with
  | nil => simp [lookupKey]
  | cons g gs ih =>
    obtain ⟨k2, v⟩ := g
    by_cases h2 : k2 = k
    · subst h2
      simp [lookupKey]
    · simp only [lookupKey, if_neg h2, List.map_cons, List.mem_cons, ih]
      constructor
      · intro h hc
        rcases hc with hc | hc
        · exact h2 hc.symm
        · exact h hc
      · intro h hc
        exact h (Or.inr hc)

/-! ## groupByRepo lemmas -/

theorem groupByRepo_append (acts : List Activity) (a : Activity) :
    groupByRepo (acts ++ [a]) = groupStep (groupByRepo acts) a := by
  simp [groupByRepo, List.foldl_append]

theorem lookupKey_groupByRepo (acts : List Activity) (r : String) :
    lookupKey r (groupByRepo acts) =
      if acts.filter (fun a => a.repo == r) = [] then none
      else some (acts.filter (fun a => a.repo == r)) := by
  induction acts using List.reverseRecOn with
  | nil => simp [groupByRepo, lookupKey]
  | append_singleton acts a ih =>
    rw [groupByRepo_append]
    simp only [groupStep]
    rw [lookupKey_upsert]
    by_cases hr : a.repo = r
    · rw [if_pos hr]
      have hfil : (acts ++ [a]).filter (fun x => x.repo == r) =
          acts.filter (fun x => x.repo == r) ++ [a] := by
        simp [List.filter_append, hr]
      rw [hfil, ih]
      by_cases he : acts.filter (fun x => x.repo == r) = []
      · rw [if_pos he, he]
        simp
      · rw [if_neg he]
        simp
    · rw [if_neg hr]
      have hfil : (acts ++ [a]).filter (fun x => x.repo == r) =
          acts.filter (fun x => x.repo == r) := by
        simp only [List.filter_append]
        have : (fun x => x.repo == r) a = false := by
          simp [hr]
        simp [List.filter_cons, this]
      rw [hfil, ih]

theorem groupByRepo_keys_nodup (acts : List Activity) :
    ((groupByRepo acts).map Prod.fst).Nodup := by
  induction acts using List.reverseRecOn with
  | nil => simp [groupByRepo]
  | append_singleton acts a ih =>
    rw [groupByRepo_append]
    simp only [groupStep]
    exact upsert_keys_nodup _ _ _ ih

theorem mem_groupByRepo {acts : List Activity} {r : String} {l : List Activity}
    (h : (r, l) ∈ groupByRepo acts) :
    l = acts.filter (fun a => a.repo == r) ∧ l ≠ [] := by
  have hl := lookupKey_of_mem (groupByRepo_keys_nodup acts) h
  rw [lookupKey_groupByRepo] at hl
  by_cases he : acts.filter (fun a => a.repo == r) = []
  · rw [if_pos he] at hl; cases hl
  · rw [if_neg he] at hl
    injection hl with hl'
    refine ⟨hl'.symm, fun hnil => he ?_⟩
    rw [hl', hnil]

/-! ## PR grouping lemmas -/

theorem mem_insertState {s x : String} {states : List String} :
    x ∈ insertState s states ↔ x ∈ states ∨ x = s := by
  by_cases h : s ∈ states
  · simp only [insertState, if_pos h]
    constructor
    · exact Or.inl
    · intro hx
      rcases hx with hx | rfl
      · exact hx
      · exact h
  · simp [insertState, if_neg h, List.mem_append, List.mem_singleton]

theorem prGroupsOf_append (prs : List Activity) (a : Activity) :
    prGroupsOf (prs ++ [a]) = prStep (prGroupsOf prs) a := by
  simp [prGroupsOf, List.foldl_append]

theorem prGroupsOf_keys_nodup (prs : List Activity) :
    ((prGroupsOf prs).map Prod.fst).Nodup := by
  induction prs using List.reverseRecOn with
  | nil => simp [prGroupsOf]
  | append_singleton prs a ih =>
    rw [prGroupsOf_append]
    cases a with
    | commit c => simpa [prStep] using ih
    | pr p =>
      simp only [prStep]
      exact upsert_keys_nodup _ _ _ ih

theorem prsTitled_append_commit (t : String) (prs : List Activity) (c : CommitInfo) :
    prsTitled t (prs ++ [Activity.commit c]) = prsTitled t prs := by
  simp [prsTitled, List.filterMap_append]

theorem prsTitled_append_pr (t : String) (prs : List Activity) (p : PRInfo) :
    prsTitled t (prs ++ [Activity.pr p]) =
      prsTitled t prs ++ (if p.title = t then [p] else []) := by
  by_cases h : p.title = t
  · simp [prsTitled, List.filterMap_append, h]
  · simp [prsTitled, List.filterMap_append, h]

theorem prDatesOf_append_commit (t : String) (prs : List Activity) (c : CommitInfo) :
    prDatesOf t (prs ++ [Activity.commit c]) = prDatesOf t prs := by
  simp [prDatesOf, prsTitled_append_commit]

theorem prStatesOf_append_commit (t : String) (prs : List Activity) (c : CommitInfo) :
    prStatesOf t (prs ++ [Activity.commit c]) = prStatesOf t prs := by
  simp [prStatesOf, prsTitled_append_commit]

theorem prDatesOf_append_pr (t : String) (prs : List Activity) (p : PRInfo) :
    prDatesOf t (prs ++ [Activity.pr p]) =
      prDatesOf t prs ++ (if p.title = t then [p.date] else []) := by
  by_cases h : p.title = t
  · simp [prDatesOf, prsTitled_append_pr, h]
  · simp [prDatesOf, prsTitled_append_pr, h]

theorem prStatesOf_append_pr (t : String) (prs : List Activity) (p : PRInfo) :
    prStatesOf t (prs ++ [Activity.pr p]) =
      prStatesOf t prs ++ (if p.title = t then [p.state] else []) := by
  by_cases h : p.title = t
  · simp [prStatesOf, prsTitled_append_pr, h]
  · simp [prStatesOf, prsTitled_append_pr, h]

theorem prGroups_lookup (t : String) (prs : List Activity) :
    (lookupKey t (prGroupsOf prs) = none ↔ prsTitled t prs = []) ∧
    (∀ g, lookupKey t (prGroupsOf prs) = some g →
      g.date = natMax (prDatesOf t prs) ∧
      ∀ s, (s ∈ g.states ↔ s ∈ prStatesOf t prs)) := by
  induction prs using List.reverseRecOn with
  | nil =>
    constructor
    · simp [prGroupsOf, lookupKey, prsTitled]
    · intro g hg
      simp [prGroupsOf, lookupKey] at hg
  | append_singleton prs a ih =>
    rw [prGroupsOf_append]
    cases a with
    | commit c =>
      simp only [prStep]
      rw [prsTitled_append_commit, prDatesOf_append_commit, prStatesOf_append_commit]
      exact ih
    | pr p =>
      simp only [prStep]
      rw [lookupKey_upsert]
      by_cases ht : p.title = t
      · rw [if_pos ht]
        rw [prsTitled_append_pr, prDatesOf_append_pr, prStatesOf_append_pr,
          if_pos ht, if_pos ht, if_pos ht]
        constructor
        · constructor
          · intro h; cases h
          · intro h
            exact absurd h (by simp)
        · intro g hg
          injection hg with hg'
          cases hlk : lookupKey t (prGroupsOf prs) with
          | none =>
            have hemp : prsTitled t prs = [] := ih.1.1 hlk
            have hdemp : prDatesOf t prs = [] := by simp [prDatesOf, hemp]
            have hsemp : prStatesOf t prs = [] := by simp [prStatesOf, hemp]
            rw [hlk] at hg'
            rw [← hg']
            constructor
            · show p.date = natMax (prDatesOf t prs ++ [p.date])
              rw [hdemp]
              simp [natMax]
            · intro s
              show s ∈ [p.state] ↔ s ∈ prStatesOf t prs ++ [p.state]
              rw [hsemp]
              simp
          | some g0 =>
            rcases ih.2 g0 hlk with ⟨h1, h2⟩
            rw [hlk] at hg'
            rw [← hg']
            constructor
            · show max g0.date p.date = natMax (prDatesOf t prs ++ [p.date])
              rw [natMax_append_single, ← h1]
            · intro s
              show s ∈ insertState p.state g0.states ↔ s ∈ prStatesOf t prs ++ [p.state]
              rw [List.mem_append, List.mem_singleton, mem_insertState]
              constructor
              · intro hx
                rcases hx with hx | rfl
                · exact Or.inl ((h2 s).1 hx)
                · exact Or.inr rfl
              · intro hx
                rcases hx with hx | rfl
                · exact Or.inl ((h2 s).2 hx)
                · exact Or.inr rfl
      · rw [if_neg ht]
        rw [prsTitled_append_pr, prDatesOf_append_pr, prStatesOf_append_pr,
          if_neg ht, if_neg ht, if_neg ht]
        simpa using ih

/-! ## Commit rendering lemmas -/

theorem mem_renderCommitsAux {repo : String} :
    ∀ {l : List Activity} {seen : List String} {L : Line},
      L ∈ renderCommitsAux repo l seen →
      ∃ c : CommitInfo, Activity.commit c ∈ l ∧
        L = Line.commitLine repo c.message c.sha c.date c.stats ∧
        suppressed c.message = false := by
  intro l
  induction l with
  | nil => intro seen L h; simp [renderCommitsAux] at h
  | cons a l ih =>
    intro seen L h
    cases a with
    | pr p =>
      simp only [renderCommitsAux] at h
      rcases ih h with ⟨c2, hc2, hL, hs2⟩
      exact ⟨c2, List.mem_cons_of_mem _ hc2, hL, hs2⟩
    | commit c =>
      simp only [renderCommitsAux] at h
      by_cases hs : suppressed c.message = true
      · rw [if_pos hs] at h
        rcases ih h with ⟨c2, hc2, hL, hs2⟩
        exact ⟨c2, List.mem_cons_of_mem _ hc2, hL, hs2⟩
      · rw [if_neg hs] at h
        by_cases hseen : seen.contains c.sha = true
        · rw [if_pos hseen] at h
          rcases ih h with ⟨c2, hc2, hL, hs2⟩
          exact ⟨c2, List.mem_cons_of_mem _ hc2, hL, hs2⟩
        · rw [if_neg hseen] at h
          rcases List.mem_cons.1 h with rfl | h2
          · exact ⟨c, List.mem_cons_self _ _, rfl, Bool.not_eq_true _ ▸ eq_false_of_ne_true hs⟩
          · rcases ih h2 with ⟨c2, hc2, hL, hs2⟩
            exact ⟨c2, List.mem_cons_of_mem _ hc2, hL, hs2⟩

theorem renderCommitsAux_shas_fresh (repo : String) :
    ∀ (l : List Activity) (seen : List String),
      (shasOfLines (renderCommitsAux repo l seen)).Nodup ∧
      ∀ s ∈ shasOfLines (renderCommitsAux repo l seen), s ∉ seen := by
  intro l
  induction l with
  | nil => intro seen; simp [renderCommitsAux, shasOfLines]
  | cons a l ih =>
    intro seen
    cases a with
    | pr p => simpa only [renderCommitsAux] using ih seen
    | commit c =>
      simp only [renderCommitsAux]
      by_cases hs : suppressed c.message = true
      · rw [if_pos hs]; exact ih seen
      · rw [if_neg hs]
        by_cases hseen : seen.contains c.sha = true
        · rw [if_pos hseen]; exact ih seen
        · rw [if_neg hseen]
          rcases ih (c.sha :: seen) with ⟨hnd, hfresh⟩
          have hshas : shasOfLines (Line.commitLine repo c.message c.sha c.date c.stats ::
              renderCommitsAux repo l (c.sha :: seen)) =
              c.sha :: shasOfLines (renderCommitsAux repo l (c.sha :: seen)) := by
            simp [shasOfLines, List.filterMap_cons, shaOfLine]
          rw [hshas]
          constructor
          · refine List.nodup_cons.2 ⟨?_, hnd⟩
            intro hmem
            exact hfresh c.sha hmem (List.mem_cons_self _ _)
          · intro s hmem
            rcases List.mem_cons.1 hmem with rfl | h2
            · intro hcon
              exact hseen (by simpa using hcon)
            · intro hcon
              exact hfresh s h2 (List.mem_cons_of_mem _ hcon)

theorem renderCommitsAux_pairwise (repo : String) :
    ∀ (l : List Activity) (seen : List String),
      l.Pairwise (fun a b => Activity.date b ≤ Activity.date a) →
      (renderCommitsAux repo l seen).Pairwise lineOrd := by
  intro l
  induction l with
  | nil => intro seen _; simp [renderCommitsAux]
  | cons a l ih =>
    intro seen h
    rcases List.pairwise_cons.1 h with ⟨ha, hl⟩
    cases a with
    | pr p =>
      simp only [renderCommitsAux]
      exact ih seen hl
    | commit c =>
      simp only [renderCommitsAux]
      by_cases hs : suppressed c.message = true
      · rw [if_pos hs]; exact ih seen hl
      · rw [if_neg hs]
        by_cases hseen : seen.contains c.sha = true
        · rw [if_pos hseen]; exact ih seen hl
        · rw [if_neg hseen]
          refine List.pairwise_cons.2 ⟨?_, ih _ hl⟩
          intro L hL
          rcases mem_renderCommitsAux hL with ⟨c2, hc2, rfl, _⟩
          show Activity.date (Activity.commit c2) ≤ Activity.date (Activity.commit c)
          exact ha _ hc2

theorem renderCommitsAux_all_commitLines {repo : String} {l : List Activity}
    {seen : List String} :
    ∀ L ∈ renderCommitsAux repo l seen, isCommitLine L = true := by
  intro L hL
  rcases mem_renderCommitsAux hL with ⟨c, _, rfl, _⟩
  rfl

/-! ## Report body decomposition -/

theorem renderSection_ok {info : String → Option RepoInfo} {repo : String}
    {acts : List Activity} {lines : List Line}
    (h : renderSection info repo acts = .ok lines) :
    ∃ (pa : Option ParentRepo) (fk : Bool),
      lines = Line.repoHeader repo pa ::
        (sectionPRLines repo (sectionPRs fk repo acts) ++ sectionCommitLines repo acts) := by
  simp only [renderSection] at h
  split at h
  · cases h
  · split at h
    · split at h
      · cases h
      · rename_i par hpar
        injection h with h'
        exact ⟨some par, true, h'.symm⟩
    · injection h with h'
      exact ⟨none, false, h'.symm⟩

theorem renderBody_ok {info : String → Option RepoInfo} {acts : List Activity}
    {lines : List Line} (h : renderBody info acts = .ok lines) :
    ∃ secs : List (List Line),
      List.Forall₂ (fun g sec => renderSection info g.1 g.2 = .ok sec)
        (sortedReposOf acts) secs ∧
      lines = (if acts.isEmpty then [Line.noActivity]
        else [Line.summary (total_commits acts) (total_prs acts)]) ++ secs.flatten := by
  simp only [renderBody] at h
  cases hm : mapExcept (fun g => renderSection info g.1 g.2) (sortedReposOf acts) with
  | error e => rw [hm] at h; simp [Bind.bind, Except.bind] at h
  | ok secs =>
    rw [hm] at h
    simp only [Bind.bind, Except.bind, pure, Except.pure, Except.ok.injEq] at h
    exact ⟨secs, mapExcept_ok_forall₂ _ _ _ hm, h.symm⟩

/-! # Claims (continued) -/

/-- C4: a commit whose message starts with "Merge" or contains
"Co-authored-by" never produces a commit line in the rendered single-user
report body: every rendered commit line's message fails both suppression
tests, whatever the activity list, the event order, or the deduplication
state. -/
theorem C4_suppressed_commits_never_rendered
    (info : String → Option RepoInfo) (acts : List Activity) (lines : List Line)
    (h : renderBody info acts = .ok lines)
    (repo msg sha : String) (d : Nat) (st : Option Stats)
    (hmem : Line.commitLine repo msg sha d st ∈ lines) :
    strStarts msg "Merge" = false ∧ strContains msg "Co-authored-by" = false := by
  rcases renderBody_ok h with ⟨secs, hFa, hlines⟩
  rw [hlines] at hmem
  rcases List.mem_append.1 hmem with hh | hh
  · by_cases he : acts.isEmpty
    · rw [if_pos he] at hh
      simp at hh
    · rw [if_neg he] at hh
      simp at hh
  · rcases List.mem_flatten.1 hh with ⟨sec, hsec, hmem2⟩
    rcases forall₂_mem_right hFa sec hsec with ⟨g, hg, hrs⟩
    rcases renderSection_ok hrs with ⟨pa, fk, rfl⟩
    rcases List.mem_cons.1 hmem2 with heq | hmem3
    · simp at heq
    · rcases List.mem_append.1 hmem3 with hpr | hcl
      · simp only [sectionPRLines] at hpr
        rcases List.mem_map.1 hpr with ⟨tg, _, heq⟩
        simp at heq
      · rcases mem_renderCommitsAux hcl with ⟨c, _, heq, hsup⟩
        injection heq with e1 e2 e3 e4 e5
        subst e2
        simpa [suppressed] using hsup

theorem C4_suppressed_commits_never_rendered_witness :
    strStarts "tidy up" "Merge" = false ∧
    strContains "tidy up" "Co-authored-by" = false :=
  C4_suppressed_commits_never_rendered nonForkInfo ex4_acts
    [Line.summary 1 0, Line.repoHeader "a/r" none,
     Line.commitLine "a/r" "tidy up" "s2" 3 none]
    rfl "a/r" "tidy up" "s2" 3 none (by simp)

/-- C10: in the team report every included activity produces exactly one
rendered line (same number of lines as activities, each activity's line
present), with no SHA deduplication and no merge/co-author suppression, and
the per-user commit and PR counts are raw event counts, not unique-key
counts.  The concrete part evaluates the contrast: two push events carrying
the same SHA and a "Merge" message yield a team commit count of 2 and two
rendered team lines, although the unique-SHA count is 1 and the single-user
renderer would suppress the message. -/
theorem C10_team_raw_counts_no_dedup :
    (∀ acts : List Activity,
      (teamUserLines acts).length = acts.length ∧
      (∀ a ∈ acts, teamActivityLine a ∈ teamUserLines acts) ∧
      (teamUserLines acts).countP isCommitLine = teamUserCommitCount acts ∧
      (teamUserLines acts).countP isPRLine = teamUserPRCount acts) ∧
    (teamUserCommitCount ex10_acts = 2 ∧ total_commits ex10_acts = 1 ∧
      teamUserLines ex10_acts =
        [Line.commitLine "a/r" "Merge branch main" "s5" 3 none,
         Line.commitLine "a/r" "Merge branch main" "s5" 2 none] ∧
      suppressed "Merge branch main" = true) := by
  constructor
  · intro acts
    refine ⟨?_, ?_, ?_, ?_⟩
    · rw [teamUserLines, List.length_map, length_sortDescBy]
    · intro a ha
      exact List.mem_map.2 ⟨a, mem_sortDescBy.2 ha, rfl⟩
    · rw [teamUserLines, List.countP_map]
      have hc : ∀ a : Activity, isCommitLine (teamActivityLine a) = isCommitAct a := by
        intro a; cases a <;> rfl
      have : (sortDescBy Activity.date acts).countP (fun a => isCommitLine (teamActivityLine a)) =
          (sortDescBy Activity.date acts).countP isCommitAct :=
        List.countP_congr (fun a _ => by rw [hc a])
      rw [show (isCommitLine ∘ teamActivityLine) = fun a => isCommitLine (teamActivityLine a)
        from rfl, this, (sortDescBy_perm Activity.date acts).countP_eq,
        teamUserCommitCount, List.countP_eq_length_filter]
    · rw [teamUserLines, List.countP_map]
      have hc : ∀ a : Activity, isPRLine (teamActivityLine a) = isPRAct a := by
        intro a; cases a <;> rfl
      have : (sortDescBy Activity.date acts).countP (fun a => isPRLine (teamActivityLine a)) =
          (sortDescBy Activity.date acts).countP isPRAct :=
        List.countP_congr (fun a _ => by rw [hc a])
      rw [show (isPRLine ∘ teamActivityLine) = fun a => isPRLine (teamActivityLine a)
        from rfl, this, (sortDescBy_perm Activity.date acts).countP_eq,
        teamUserPRCount, List.countP_eq_length_filter]
  · refine ⟨rfl, rfl, rfl, rfl⟩

theorem C10_team_raw_counts_no_dedup_witness :
    teamActivityLine (mkC "a/r" "s5" "Merge branch main" 3) ∈ teamUserLines ex10_acts :=
  (C10_team_raw_counts_no_dedup.1 ex10_acts).2.1 (mkC "a/r" "s5" "Merge branch main" 3)
    (List.mem_cons_self _ _)

theorem countP_eq_one_of_nodup_mem {l : List String} (h : l.Nodup) {t : String}
    (ht : t ∈ l) : l.countP (fun x => decide (x = t)) = 1 := by
  induction l with
  | nil => cases ht
  | cons a l ih =>
    rcases List.nodup_cons.1 h with ⟨ha, hnd⟩
    by_cases hat : a = t
    · subst hat
      rw [List.countP_cons]
      have hz : l.countP (fun x => decide (x = a)) = 0 :=
        List.countP_eq_zero.2 (fun x hx => by
          simp only [decide_eq_true_eq]
          intro hxa
          exact ha (hxa ▸ hx))
      simp [hz]
    · rcases List.mem_cons.1 ht with rfl | htl
      · exact absurd rfl hat
      · rw [List.countP_cons]
        simp only [decide_eq_true_eq, hat]
        simpa using ih hnd htl

/-- C5: within one repository section, all PR events sharing the same
(repository, title) key are rendered as exactly one line; the merged group's
state set is the union of the constituents' states, its timestamp is the
maximum of the constituents' timestamps (and bounds them all), the line's
marker is the closed marker iff "closed" is among the unioned states, and
the PR lines are ordered by their (maximal) timestamps descending. -/
theorem C5_pr_dedup_by_title (repo : String) (prs : List Activity) (t : String)
    (g : PRGroup) (hmem : (t, g) ∈ prGroupsOf prs) :
    (sectionPRLines repo prs).countP
      (fun L => decide (prKeyOfLine L = some (repo, t))) = 1 ∧
    Line.prLine repo t (g.states.contains "closed") g.date ∈ sectionPRLines repo prs ∧
    (∀ s, s ∈ g.states ↔ s ∈ prStatesOf t prs) ∧
    g.date = natMax (prDatesOf t prs) ∧
    g.date ∈ prDatesOf t prs ∧
    (∀ d ∈ prDatesOf t prs, d ≤ g.date) ∧
    ((g.states.contains "closed") = true ↔ "closed" ∈ g.states) ∧
    (sectionPRLines repo prs).Pairwise (fun l1 l2 => lineDate l2 ≤ lineDate l1) := by
  have hlk := lookupKey_of_mem (prGroupsOf_keys_nodup prs) hmem
  rcases prGroups_lookup t prs with ⟨hnone, hsome⟩
  rcases hsome g hlk with ⟨hdate, hstates⟩
  have htne : prsTitled t prs ≠ [] := by
    intro hemp
    rw [hnone.2 hemp] at hlk
    cases hlk
  have hdne : prDatesOf t prs ≠ [] := by
    intro hemp
    exact htne (by simpa [prDatesOf] using hemp)
  refine ⟨?_, ?_, hstates, hdate, ?_, ?_, by simp, ?_⟩
  · rw [sectionPRLines, List.countP_map]
    have hcong : ∀ tg ∈ sortDescBy (fun tg => tg.2.date) (prGroupsOf prs),
        ((fun L => decide (prKeyOfLine L = some (repo, t))) ∘
          (fun tg => Line.prLine repo tg.1 (tg.2.states.contains "closed") tg.2.date)) tg =
          true ↔ (fun tg => decide (tg.1 = t)) tg = true := by
      intro tg _
      simp [prKeyOfLine]
    rw [List.countP_congr hcong,
      (sortDescBy_perm (fun tg => tg.2.date) (prGroupsOf prs)).countP_eq]
    have : (prGroupsOf prs).countP (fun tg => decide (tg.1 = t)) =
        ((prGroupsOf prs).map Prod.fst).countP (fun k => decide (k = t)) := by
      rw [List.countP_map]
      rfl
    rw [this]
    exact countP_eq_one_of_nodup_mem (prGroupsOf_keys_nodup prs)
      (List.mem_map.2 ⟨(t, g), hmem, rfl⟩)
  · rw [sectionPRLines]
    exact List.mem_map.2 ⟨(t, g), mem_sortDescBy.2 hmem, rfl⟩
  · rw [hdate]
    exact natMax_mem _ hdne
  · intro d hd
    rw [hdate]
    exact le_natMax _ d hd
  · rw [sectionPRLines]
    rw [List.pairwise_map]
    exact (sortDescBy_pairwise (fun tg => tg.2.date) (prGroupsOf prs)).imp
      (fun hab => hab)

theorem C5_pr_dedup_by_title_witness :
    Line.prLine "r" "T" true 2 ∈ sectionPRLines "r" ex5_prs :=
  (C5_pr_dedup_by_title "r" ex5_prs "T"
    { date := 2, states := ["opened", "closed"] } (by decide)).2.1

/-- C6: the report's repository sections are ordered by each section's
maximum entry timestamp, descending, with ties kept in stable input
(first-occurrence) order — expressed by the filter-at-each-key equality with
the insertion-ordered grouping; and inside every successfully rendered
section the header is followed only by PR and commit lines in an order where
no commit line precedes a PR line, PR lines carry descending dates, and
commit lines carry descending dates. -/
theorem C6_report_ordering (info : String → Option RepoInfo) (acts : List Activity) :
    (sortedReposOf acts).Pairwise (fun g h => maxDateOf h.2 ≤ maxDateOf g.2) ∧
    (∀ k : Nat, (sortedReposOf acts).filter (fun g => maxDateOf g.2 == k) =
      (groupByRepo acts).filter (fun g => maxDateOf g.2 == k)) ∧
    (∀ (repo : String) (acts' : List Activity) (lines : List Line),
      renderSection info repo acts' = .ok lines →
      ∃ (pa : Option ParentRepo) (rest : List Line),
        lines = Line.repoHeader repo pa :: rest ∧
        rest.Pairwise lineOrd ∧
        (∀ L ∈ rest, isPRLine L = true ∨ isCommitLine L = true)) := by
  refine ⟨?_, ?_, ?_⟩
  · exact sortDescBy_pairwise (fun g => maxDateOf g.2) (groupByRepo acts)
  · intro k
    exact sortDescBy_filter (fun g => maxDateOf g.2) (groupByRepo acts) k
  · intro repo acts' lines h
    rcases renderSection_ok h with ⟨pa, fk, rfl⟩
    refine ⟨pa, _, rfl, ?_, ?_⟩
    · rw [List.pairwise_append]
      refine ⟨?_, ?_, ?_⟩
      · rw [sectionPRLines, List.pairwise_map]
        exact (sortDescBy_pairwise (fun tg : String × PRGroup => tg.2.date)
          (prGroupsOf (sectionPRs fk repo acts'))).imp (fun hab => hab)
      · exact renderCommitsAux_pairwise repo _ []
          (sortDescBy_pairwise Activity.date (sectionCommits acts'))
      · intro L1 h1 L2 h2
        rw [sectionPRLines] at h1
        rcases List.mem_map.1 h1 with ⟨tg, _, rfl⟩
        rcases mem_renderCommitsAux h2 with ⟨c, _, rfl, _⟩
        exact trivial
    · intro L hL
      rcases List.mem_append.1 hL with h1 | h2
      · rw [sectionPRLines] at h1
        rcases List.mem_map.1 h1 with ⟨tg, _, rfl⟩
        exact Or.inl rfl
      · exact Or.inr (renderCommitsAux_all_commitLines L h2)

theorem C6_report_ordering_witness :
    ∃ (pa : Option ParentRepo) (rest : List Line),
      [Line.repoHeader "a/r" none, Line.prLine "a/r" "T" false 4,
       Line.commitLine "a/r" "small fix" "s3" 5 none] =
        Line.repoHeader "a/r" pa :: rest ∧
      rest.Pairwise lineOrd ∧
      (∀ L ∈ rest, isPRLine L = true ∨ isCommitLine L = true) :=
  (C6_report_ordering nonForkInfo ex6_acts).2.2 "a/r" ex6_acts
    [Line.repoHeader "a/r" none, Line.prLine "a/r" "T" false 4,
     Line.commitLine "a/r" "small fix" "s3" 5 none] rfl

theorem filterMap_some_eq_map {α β : Type} (f : α → β) (l : List α) :
    l.filterMap (fun a => some (f a)) = l.map f := by
  induction l with
  | nil => rfl
  | cons a l ih => simp [List.filterMap_cons, ih]

theorem forall₂_pairwise {α β : Type} {R : α → β → Prop} {P : α → α → Prop}
    {Q : β → β → Prop}
    (hPQ : ∀ a1 b1 a2 b2, R a1 b1 → R a2 b2 → P a1 a2 → Q b1 b2) :
    ∀ {l : List α} {out : List β}, List.Forall₂ R l out → l.Pairwise P →
      out.Pairwise Q := by
  intro l out hf
  induction hf with
  | nil => intro _; constructor
  | cons hab hrest ih =>
    intro hp
    rcases List.pairwise_cons.1 hp with ⟨hhead, htail⟩
    refine List.pairwise_cons.2 ⟨?_, ih htail⟩
    intro b hb
    rcases forall₂_mem_right hrest b hb with ⟨a, ha, hr⟩
    exact hPQ _ _ _ _ hab hr (hhead a ha)

theorem renderSection_prKeys {info : String → Option RepoInfo} {repo : String}
    {acts' : List Activity} {lines' : List Line}
    (h : renderSection info repo acts' = .ok lines') :
    (prKeysOfLines lines').Nodup ∧ (∀ k ∈ prKeysOfLines lines', k.1 = repo) := by
  rcases renderSection_ok h with ⟨pa, fk, rfl⟩
  have hcl : (sectionCommitLines repo acts').filterMap prKeyOfLine = [] :=
    List.filterMap_eq_nil_iff.2 (fun L hL => by
      rcases mem_renderCommitsAux hL with ⟨c, _, rfl, _⟩
      rfl)
  have hpr : (sectionPRLines repo (sectionPRs fk repo acts')).filterMap prKeyOfLine =
      (sortDescBy (fun tg : String × PRGroup => tg.2.date)
        (prGroupsOf (sectionPRs fk repo acts'))).map (fun tg => (repo, tg.1)) := by
    rw [sectionPRLines, List.filterMap_map]
    show (sortDescBy (fun tg : String × PRGroup => tg.2.date)
        (prGroupsOf (sectionPRs fk repo acts'))).filterMap
        (fun tg => some (repo, tg.1)) = _
    exact filterMap_some_eq_map _ _
  have hkeys : prKeysOfLines (Line.repoHeader repo pa ::
      (sectionPRLines repo (sectionPRs fk repo acts') ++ sectionCommitLines repo acts')) =
      (sortDescBy (fun tg : String × PRGroup => tg.2.date)
        (prGroupsOf (sectionPRs fk repo acts'))).map (fun tg => (repo, tg.1)) := by
    rw [prKeysOfLines, List.filterMap_cons, List.filterMap_append, hcl, hpr]
    simp [prKeyOfLine]
  rw [hkeys]
  constructor
  · have hnd : ((sortDescBy (fun tg : String × PRGroup => tg.2.date)
        (prGroupsOf (sectionPRs fk repo acts'))).map Prod.fst).Nodup :=
      (((sortDescBy_perm (fun tg : String × PRGroup => tg.2.date)
        (prGroupsOf (sectionPRs fk repo acts'))).map Prod.fst).nodup_iff).2
        (prGroupsOf_keys_nodup _)
    have hP := List.pairwise_map.1 hnd
    exact List.pairwise_map.2 (hP.imp (fun hne heq => hne (congrArg Prod.snd heq)))
  · intro k hk
    rcases List.mem_map.1 hk with ⟨tg, _, rfl⟩
    rfl

/-- C7 counterexample: the claim "no two rendered commit lines correspond to
activities with the same SHA" fails on the single-user report already,
because commit deduplication is per repository section (`seen_shas` is reset
for every section): two commit activities with the same SHA under two
different repositories render as two commit lines carrying that SHA. -/
theorem C7_counterexample :
    renderBody nonForkInfo ex7_acts = Except.ok
      [Line.summary 1 0, Line.repoHeader "c/r" none,
       Line.commitLine "c/r" "alpha work" "s9" 7 none,
       Line.repoHeader "d/r" none,
       Line.commitLine "d/r" "beta work" "s9" 6 none] ∧
    shasOfLines (linesOf (renderBody nonForkInfo ex7_acts)) = ["s9", "s9"] ∧
    ¬ (shasOfLines (linesOf (renderBody nonForkInfo ex7_acts))).Nodup :=
  ⟨rfl, rfl, by decide⟩

/-- C7 (amended): in the single-user report, rendered PR deduplication keys
(repository, title) are globally unique across the whole body, and rendered
commit SHAs are unique within each repository section (the code resets
`seen_shas` per section, so cross-section SHA uniqueness does not hold; the
team variant applies no deduplication at all). -/
theorem C7_rendered_key_uniqueness (info : String → Option RepoInfo)
    (acts : List Activity) (lines : List Line)
    (h : renderBody info acts = .ok lines) :
    (prKeysOfLines lines).Nodup ∧
    (∀ (repo : String) (acts' : List Activity) (lines' : List Line),
      renderSection info repo acts' = .ok lines' → (shasOfLines lines').Nodup) := by
  constructor
  · rcases renderBody_ok h with ⟨secs, hFa, rfl⟩
    have hhead : (if acts.isEmpty then [Line.noActivity]
        else [Line.summary (total_commits acts) (total_prs acts)]).filterMap
        prKeyOfLine = [] := by
      by_cases he : acts.isEmpty
      · simp [he, prKeyOfLine]
      · simp [he, prKeyOfLine]
    rw [prKeysOfLines, List.filterMap_append, hhead, List.nil_append,
      List.filterMap_flatten, List.nodup_flatten]
    constructor
    · intro l hl
      rcases List.mem_map.1 hl with ⟨sec, hsec, rfl⟩
      rcases forall₂_mem_right hFa sec hsec with ⟨g, hg, hrs⟩
      exact (renderSection_prKeys hrs).1
    · rw [List.pairwise_map]
      have hnd : ((sortedReposOf acts).map Prod.fst).Nodup := by
        rw [sortedReposOf]
        exact (((sortDescBy_perm (fun g : String × List Activity => maxDateOf g.2)
          (groupByRepo acts)).map Prod.fst).nodup_iff).2 (groupByRepo_keys_nodup acts)
      have hP := List.pairwise_map.1 hnd
      refine forall₂_pairwise ?_ hFa hP
      intro g1 s1 g2 s2 hr1 hr2 hne
      intro k hk1 hk2
      have h1 := (renderSection_prKeys hr1).2 k hk1
      have h2 := (renderSection_prKeys hr2).2 k hk2
      exact hne (h1 ▸ h2 ▸ rfl)
  · intro repo acts' lines' hrs
    rcases renderSection_ok hrs with ⟨pa, fk, rfl⟩
    have hpr : (sectionPRLines repo (sectionPRs fk repo acts')).filterMap shaOfLine
        = [] :=
      List.filterMap_eq_nil_iff.2 (fun L hL => by
        rw [sectionPRLines] at hL
        rcases List.mem_map.1 hL with ⟨tg, _, rfl⟩
        rfl)
    rw [shasOfLines, List.filterMap_cons, List.filterMap_append, hpr]
    simp only [shaOfLine, List.nil_append]
    exact (renderCommitsAux_shas_fresh repo _ []).1

theorem C7_rendered_key_uniqueness_witness :
    (prKeysOfLines [Line.summary 1 0, Line.repoHeader "a/r" none,
      Line.commitLine "a/r" "tidy up" "s2" 3 none]).Nodup :=
  (C7_rendered_key_uniqueness nonForkInfo ex4_acts
    [Line.summary 1 0, Line.repoHeader "a/r" none,
     Line.commitLine "a/r" "tidy up" "s2" 3 none] rfl).1

/-! ## Counting lemmas for the summary bounds -/

theorem nodup_length_le_card {κ : Type} [DecidableEq κ] {l : List κ} (hnd : l.Nodup)
    {s : Finset κ} (hsub : ∀ x ∈ l, x ∈ s) : l.length ≤ s.card := by
  rw [← List.toFinset_card_of_nodup hnd]
  exact Finset.card_le_card (fun x hx => hsub x (List.mem_toFinset.1 hx))

theorem mem_shaList {s : String} {l : List Activity} :
    s ∈ shaList l ↔ ∃ c : CommitInfo, Activity.commit c ∈ l ∧ c.sha = s := by
  constructor
  · intro h
    rcases List.mem_filterMap.1 h with ⟨a, ha, hsome⟩
    cases a with
    | commit c =>
      have hsome' : some c.sha = some s := hsome
      injection hsome' with h'
      exact ⟨c, ha, h'⟩
    | pr p =>
      have hsome' : (none : Option String) = some s := hsome
      cases hsome'
  · rintro ⟨c, hc, rfl⟩
    exact List.mem_filterMap.2 ⟨Activity.commit c, hc, rfl⟩

theorem mem_prKeyList {k : String × String} {l : List Activity} :
    k ∈ prKeyList l ↔ ∃ p : PRInfo, Activity.pr p ∈ l ∧ (p.repo, p.title) = k := by
  constructor
  · intro h
    rcases List.mem_filterMap.1 h with ⟨a, ha, hsome⟩
    cases a with
    | commit c =>
      have hsome' : (none : Option (String × String)) = some k := hsome
      cases hsome'
    | pr p =>
      have hsome' : some (p.repo, p.title) = some k := hsome
      injection hsome' with h'
      exact ⟨p, ha, h'⟩
  · rintro ⟨p, hp, rfl⟩
    exact List.mem_filterMap.2 ⟨Activity.pr p, hp, rfl⟩

theorem sectionCommit_shas_sub {repo : String} {acts' : List Activity} :
    ∀ s ∈ shasOfLines (sectionCommitLines repo acts'), s ∈ shaList acts' := by
  intro s hs
  rcases List.mem_filterMap.1 hs with ⟨L, hL, hsha⟩
  rw [sectionCommitLines] at hL
  rcases mem_renderCommitsAux hL with ⟨c, hc, rfl, _⟩
  have hcs : some c.sha = some s := hsha
  injection hcs with hcs'
  have hc2 : Activity.commit c ∈ sectionCommits acts' := mem_sortDescBy.1 hc
  have hc3 : Activity.commit c ∈ acts' := (List.mem_filter.1 hc2).1
  exact mem_shaList.2 ⟨c, hc3, hcs'⟩

theorem shasOfLines_length {ls : List Line} (h : ∀ L ∈ ls, isCommitLine L = true) :
    (shasOfLines ls).length = ls.length := by
  induction ls with
  | nil => rfl
  | cons L ls ih =>
    have hL := h L (List.mem_cons_self _ _)
    cases L with
    | commitLine r m sha d st =>
      simp only [shasOfLines, List.filterMap_cons, shaOfLine, List.length_cons]
      rw [show (shasOfLines ls) = ls.filterMap shaOfLine from rfl] at ih
      rw [ih (fun L hl => h L (List.mem_cons_of_mem _ hl))]
    | summary c p => simp [isCommitLine] at hL
    | noActivity => simp [isCommitLine] at hL
    | repoHeader r pa => simp [isCommitLine] at hL
    | prLine r t cl d => simp [isCommitLine] at hL

theorem section_commit_bound {info : String → Option RepoInfo} {repo : String}
    {acts' : List Activity} {lines' : List Line}
    (h : renderSection info repo acts' = .ok lines') :
    commitLineCount lines' ≤ (shaList acts').toFinset.card := by
  rcases renderSection_ok h with ⟨pa, fk, rfl⟩
  have h1 : (sectionPRLines repo (sectionPRs fk repo acts')).filter isCommitLine = [] :=
    List.filter_eq_nil_iff.2 (fun L hL => by
      rw [sectionPRLines] at hL
      rcases List.mem_map.1 hL with ⟨tg, _, rfl⟩
      simp [isCommitLine])
  have h2 : (sectionCommitLines repo acts').filter isCommitLine =
      sectionCommitLines repo acts' :=
    List.filter_eq_self.2 (fun L hL => by
      rw [sectionCommitLines] at hL
      exact renderCommitsAux_all_commitLines L hL)
  have hfil : commitLineCount (Line.repoHeader repo pa ::
      (sectionPRLines repo (sectionPRs fk repo acts') ++ sectionCommitLines repo acts')) =
      (sectionCommitLines repo acts').length := by
    rw [commitLineCount, List.filter_cons]
    simp only [isCommitLine, List.filter_append, h1, h2, List.nil_append,
      Bool.false_eq_true, if_false]
  rw [hfil]
  have hall : ∀ L ∈ sectionCommitLines repo acts', isCommitLine L = true := by
    intro L hL
    rw [sectionCommitLines] at hL
    exact renderCommitsAux_all_commitLines L hL
  rw [← shasOfLines_length hall]
  have hnd : (shasOfLines (sectionCommitLines repo acts')).Nodup := by
    rw [sectionCommitLines]
    exact (renderCommitsAux_shas_fresh repo _ []).1
  exact nodup_length_le_card hnd
    (fun x hx => List.mem_toFinset.2 (sectionCommit_shas_sub x hx))

theorem mem_prsTitled {t : String} {prs : List Activity} {p : PRInfo}
    (h : p ∈ prsTitled t prs) : Activity.pr p ∈ prs ∧ p.title = t := by
  rcases List.mem_filterMap.1 h with ⟨a, ha, hsome⟩
  cases a with
  | commit c =>
    have hsome' : (none : Option PRInfo) = some p := hsome
    cases hsome'
  | pr p' =>
    have hsome' : (if p'.title = t then some p' else none) = some p := hsome
    by_cases ht : p'.title = t
    · rw [if_pos ht] at hsome'
      injection hsome' with h'
      subst h'
      exact ⟨ha, ht⟩
    · rw [if_neg ht] at hsome'
      cases hsome'

theorem sectionPRs_subset {fk : Bool} {repo : String} {acts' : List Activity} :
    ∀ a ∈ sectionPRs fk repo acts', a ∈ acts' := by
  intro a ha
  cases fk with
  | false =>
    have h1 : a ∈ acts'.filter isPRAct := ha
    exact (List.mem_filter.1 h1).1
  | true =>
    have h1 : a ∈ (acts'.filter isPRAct).filter
        (fun a => match a with | .pr p => p.head_repo == repo | .commit _ => false) := ha
    exact (List.mem_filter.1 (List.mem_filter.1 h1).1).1

theorem section_pr_bound {info : String → Option RepoInfo} {repo : String}
    {acts' : List Activity} {lines' : List Line}
    (h : renderSection info repo acts' = .ok lines') :
    prLineCount lines' ≤ (prKeyList acts').toFinset.card := by
  rcases renderSection_ok h with ⟨pa, fk, rfl⟩
  have h1 : (sectionPRLines repo (sectionPRs fk repo acts')).filter isPRLine =
      sectionPRLines repo (sectionPRs fk repo acts') :=
    List.filter_eq_self.2 (fun L hL => by
      rw [sectionPRLines] at hL
      rcases List.mem_map.1 hL with ⟨tg, _, rfl⟩
      rfl)
  have h2 : (sectionCommitLines repo acts').filter isPRLine = [] :=
    List.filter_eq_nil_iff.2 (fun L hL => by
      rw [sectionCommitLines] at hL
      rcases mem_renderCommitsAux hL with ⟨c, _, rfl, _⟩
      simp [isPRLine])
  have hfil : prLineCount (Line.repoHeader repo pa ::
      (sectionPRLines repo (sectionPRs fk repo acts') ++ sectionCommitLines repo acts')) =
      (sectionPRLines repo (sectionPRs fk repo acts')).length := by
    rw [prLineCount, List.filter_cons]
    simp only [isPRLine, List.filter_append, h1, h2, List.append_nil,
      Bool.false_eq_true, if_false]
  rw [hfil, sectionPRLines, List.length_map, length_sortDescBy]
  have hkeylen : (prGroupsOf (sectionPRs fk repo acts')).length =
      ((prGroupsOf (sectionPRs fk repo acts')).map Prod.fst).length := by
    rw [List.length_map]
  rw [hkeylen]
  have hnd := prGroupsOf_keys_nodup (sectionPRs fk repo acts')
  rw [← List.toFinset_card_of_nodup hnd]
  refine Finset.card_le_card_of_surjOn Prod.snd ?_
  intro t ht
  simp only [Finset.mem_coe, List.mem_toFinset] at ht
  rcases List.mem_map.1 ht with ⟨tg, htg, rfl⟩
  have hlk := lookupKey_of_mem (prGroupsOf_keys_nodup _)
    (show (tg.1, tg.2) ∈ prGroupsOf (sectionPRs fk repo acts') from htg)
  have hne : prsTitled tg.1 (sectionPRs fk repo acts') ≠ [] := by
    intro hemp
    rw [(prGroups_lookup tg.1 (sectionPRs fk repo acts')).1.2 hemp] at hlk
    cases hlk
  rcases List.exists_mem_of_ne_nil _ hne with ⟨p, hp⟩
  rcases mem_prsTitled hp with ⟨hpin, hpt⟩
  refine (Set.mem_image _ _ _).2 ⟨(p.repo, p.title), ?_, hpt⟩
  simp only [Finset.mem_coe, List.mem_toFinset]
  exact mem_prKeyList.2 ⟨p, sectionPRs_subset _ hpin, rfl⟩

theorem sum_card_le_of_pairwise_disjoint {γ : Type} {κ : Type} [DecidableEq κ] :
    ∀ (gs : List γ) (F : γ → Finset κ) (S : Finset κ),
      gs.Pairwise (fun g1 g2 => Disjoint (F g1) (F g2)) →
      (∀ g ∈ gs, F g ⊆ S) →
      (gs.map (fun g => (F g).card)).sum ≤ S.card := by
  intro gs
  induction gs with
  | nil => intro F S _ _; simp
  | cons g gs ih =>
    intro F S hdisj hsub
    rcases List.pairwise_cons.1 hdisj with ⟨hg, htail⟩
    simp only [List.map_cons, List.sum_cons]
    have hsub2 : ∀ g' ∈ gs, F g' ⊆ S \ F g := by
      intro g' hg' x hx
      rw [Finset.mem_sdiff]
      refine ⟨hsub g' (List.mem_cons_of_mem _ hg') hx, ?_⟩
      intro hxg
      exact (Finset.disjoint_left.1 (hg g' hg')) hxg hx
    have h2 := ih F (S \ F g) htail hsub2
    have h3 := Finset.card_sdiff (hsub g (List.mem_cons_self _ _))
    have h4 := Finset.card_le_card (hsub g (List.mem_cons_self _ _))
    omega

theorem sum_le_of_forall₂ {γ δ : Type} {f : δ → Nat} {h : γ → Nat} :
    ∀ {gs : List γ} {ds : List δ}, List.Forall₂ (fun g d => f d ≤ h g) gs ds →
      (ds.map f).sum ≤ (gs.map h).sum := by
  intro gs ds hf
  induction hf with
  | nil => simp
  | cons hab _ ih =>
    simp only [List.map_cons, List.sum_cons]
    exact Nat.add_le_add hab ih

theorem mem_sortedReposOf {acts : List Activity} {r : String} {l : List Activity}
    (h : (r, l) ∈ sortedReposOf acts) :
    l = acts.filter (fun a => a.repo == r) := by
  rw [sortedReposOf] at h
  exact (mem_groupByRepo (mem_sortDescBy.1 h)).1

theorem count_filter_append (p : Line → Bool) (l1 l2 : List Line) :
    ((l1 ++ l2).filter p).length = (l1.filter p).length + (l2.filter p).length := by
  simp [List.filter_append]

theorem count_filter_flatten (p : Line → Bool) (L : List (List Line)) :
    ((L.flatten).filter p).length = (L.map (fun s => (s.filter p).length)).sum := by
  rw [List.filter_flatten, List.length_flatten, List.map_map]
  rfl

/-- C3 counterexample: the claim "summary counts are always ≥ the number of
rendered lines" fails, because the summary's unique-commit count is global
(distinct SHAs over the whole activity list) while commit deduplication at
render time is per repository section: the same SHA under two repositories
counts once in the summary but renders twice. -/
theorem C3_counterexample :
    renderBody nonForkInfo ex3_acts = Except.ok
      [Line.summary 1 0, Line.repoHeader "a/r" none,
       Line.commitLine "a/r" "first change" "s1" 2 none,
       Line.repoHeader "b/r" none,
       Line.commitLine "b/r" "second change" "s1" 1 none] ∧
    total_commits ex3_acts = 1 ∧
    commitLineCount (linesOf (renderBody nonForkInfo ex3_acts)) = 2 ∧
    ¬ commitLineCount (linesOf (renderBody nonForkInfo ex3_acts)) ≤
        total_commits ex3_acts :=
  ⟨rfl, rfl, rfl, by decide⟩

/-- C3 (amended): the summary's unique-commit and unique-PR counts are
computed over the full pre-suppression activity list; the rendered PR line
count never exceeds the unique-PR count, and the rendered commit line count
never exceeds the unique-commit count provided no SHA occurs under two
different repositories (commit deduplication is per repository section, so
that proviso — which conditions only the commit bound — is exactly what the
counterexample violates; the PR bound is unconditional). -/
theorem C3_summary_counts_ge_rendered (info : String → Option RepoInfo)
    (acts : List Activity) (lines : List Line)
    (h : renderBody info acts = .ok lines) :
    prLineCount lines ≤ total_prs acts ∧
    ((∀ c1 c2 : CommitInfo, Activity.commit c1 ∈ acts →
      Activity.commit c2 ∈ acts → c1.sha = c2.sha → c1.repo = c2.repo) →
      commitLineCount lines ≤ total_commits acts) := by
  rcases renderBody_ok h with ⟨secs, hFa, rfl⟩
  have hndfst : (sortedReposOf acts).Pairwise (fun g1 g2 => g1.1 ≠ g2.1) := by
    have hnd : ((sortedReposOf acts).map Prod.fst).Nodup := by
      rw [sortedReposOf]
      exact (((sortDescBy_perm (fun g : String × List Activity => maxDateOf g.2)
        (groupByRepo acts)).map Prod.fst).nodup_iff).2 (groupByRepo_keys_nodup acts)
    exact List.pairwise_map.1 hnd
  constructor
  · have hhead : ((if acts.isEmpty then [Line.noActivity]
        else [Line.summary (total_commits acts) (total_prs acts)]).filter
        isPRLine).length = 0 := by
      by_cases he : acts.isEmpty <;> simp [he, isPRLine]
    rw [prLineCount, count_filter_append, hhead, Nat.zero_add, count_filter_flatten]
    have hb : List.Forall₂ (fun (g : String × List Activity) (sec : List Line) =>
        (sec.filter isPRLine).length ≤ (prKeyList g.2).toFinset.card)
        (sortedReposOf acts) secs :=
      hFa.imp (fun _ _ hr => section_pr_bound hr)
    refine le_trans (sum_le_of_forall₂ hb) ?_
    have hS := sum_card_le_of_pairwise_disjoint (sortedReposOf acts)
      (fun g => (prKeyList g.2).toFinset) ((prKeyList acts).toFinset) ?_ ?_
    · rw [total_prs, ← List.card_toFinset]
      exact hS
    · refine hndfst.imp_of_mem ?_
      intro g1 g2 hg1 hg2 hne
      rw [Finset.disjoint_left]
      intro x hx1 hx2
      rcases mem_prKeyList.1 (List.mem_toFinset.1 hx1) with ⟨p1, hp1, hk1⟩
      rcases mem_prKeyList.1 (List.mem_toFinset.1 hx2) with ⟨p2, hp2, hk2⟩
      obtain ⟨r1, l1⟩ := g1
      obtain ⟨r2, l2⟩ := g2
      have hl1 := mem_sortedReposOf hg1
      have hl2 := mem_sortedReposOf hg2
      rw [hl1] at hp1
      rw [hl2] at hp2
      have hr1 : p1.repo = r1 := by
        have h2 := (List.mem_filter.1 hp1).2
        simpa [Activity.repo] using h2
      have hr2 : p2.repo = r2 := by
        have h2 := (List.mem_filter.1 hp2).2
        simpa [Activity.repo] using h2
      have hx12 : (p1.repo : String) = p2.repo := by
        have := hk1.trans hk2.symm
        exact congrArg Prod.fst this
      exact hne ((hr1.symm.trans hx12).trans hr2)
    · intro g hg x hx
      obtain ⟨r, l⟩ := g
      have hl := mem_sortedReposOf hg
      rcases mem_prKeyList.1 (List.mem_toFinset.1 hx) with ⟨p, hp, hk⟩
      rw [hl] at hp
      exact List.mem_toFinset.2 (mem_prKeyList.2 ⟨p, (List.mem_filter.1 hp).1, hk⟩)
  · intro hsha
    have hhead : ((if acts.isEmpty then [Line.noActivity]
        else [Line.summary (total_commits acts) (total_prs acts)]).filter
        isCommitLine).length = 0 := by
      by_cases he : acts.isEmpty <;> simp [he, isCommitLine]
    rw [commitLineCount, count_filter_append, hhead, Nat.zero_add, count_filter_flatten]
    have hb : List.Forall₂ (fun (g : String × List Activity) (sec : List Line) =>
        (sec.filter isCommitLine).length ≤ (shaList g.2).toFinset.card)
        (sortedReposOf acts) secs :=
      hFa.imp (fun _ _ hr => section_commit_bound hr)
    refine le_trans (sum_le_of_forall₂ hb) ?_
    have hS := sum_card_le_of_pairwise_disjoint (sortedReposOf acts)
      (fun g => (shaList g.2).toFinset) ((shaList acts).toFinset) ?_ ?_
    · rw [total_commits, ← List.card_toFinset]
      exact hS
    · refine hndfst.imp_of_mem ?_
      intro g1 g2 hg1 hg2 hne
      rw [Finset.disjoint_left]
      intro x hx1 hx2
      rcases mem_shaList.1 (List.mem_toFinset.1 hx1) with ⟨c1, hc1, hcs1⟩
      rcases mem_shaList.1 (List.mem_toFinset.1 hx2) with ⟨c2, hc2, hcs2⟩
      obtain ⟨r1, l1⟩ := g1
      obtain ⟨r2, l2⟩ := g2
      have hl1 := mem_sortedReposOf hg1
      have hl2 := mem_sortedReposOf hg2
      rw [hl1] at hc1
      rw [hl2] at hc2
      have hr1 : c1.repo = r1 := by
        have h2 := (List.mem_filter.1 hc1).2
        simpa [Activity.repo] using h2
      have hr2 : c2.repo = r2 := by
        have h2 := (List.mem_filter.1 hc2).2
        simpa [Activity.repo] using h2
      have heqr := hsha c1 c2 (List.mem_filter.1 hc1).1 (List.mem_filter.1 hc2).1
        (hcs1.trans hcs2.symm)
      exact hne ((hr1.symm.trans heqr).trans hr2)
    · intro g hg x hx
      obtain ⟨r, l⟩ := g
      have hl := mem_sortedReposOf hg
      rcases mem_shaList.1 (List.mem_toFinset.1 hx) with ⟨c, hc, hcs⟩
      rw [hl] at hc
      exact List.mem_toFinset.2 (mem_shaList.2 ⟨c, (List.mem_filter.1 hc).1, hcs⟩)
theorem C3_summary_counts_ge_rendered_witness :
    prLineCount [Line.summary 1 0, Line.repoHeader "a/r" none,
      Line.commitLine "a/r" "tidy up" "s2" 3 none] ≤ total_prs ex4_acts ∧
    commitLineCount [Line.summary 1 0, Line.repoHeader "a/r" none,
      Line.commitLine "a/r" "tidy up" "s2" 3 none] ≤ total_commits ex4_acts :=
  ⟨(C3_summary_counts_ge_rendered nonForkInfo ex4_acts
      [Line.summary 1 0, Line.repoHeader "a/r" none,
       Line.commitLine "a/r" "tidy up" "s2" 3 none] rfl).1,
   (C3_summary_counts_ge_rendered nonForkInfo ex4_acts
      [Line.summary 1 0, Line.repoHeader "a/r" none,
       Line.commitLine "a/r" "tidy up" "s2" 3 none] rfl).2
    (by
      intro c1 c2 h1 h2 _
      have e1 := List.mem_singleton.1 h1
      have e2 := List.mem_singleton.1 h2
      injection e1 with f1
      injection e2 with f2
      rw [f1, f2])⟩
